import Mathlib

/-!
Verification of the integrated capitalization checker
(`integrated_capitalizer.py` together with the Name Store client
`geo_capitalizer.py`).

Strings are modelled as lists of characters (`Str`).  Python's string
operations (`lower`, `capitalize`, `title`, `split`, `' '.join`,
substring test) are given executable models; case mapping is modelled on
the ASCII range, which covers every term in the rule catalog.  The Name
Store (`GeoCapitalizer.get_correct_capitalization`, a SQLite lookup) is
external data and is passed in as a function `Lookup` from a queried
string to the optional canonical form, mirroring
`check_capitalization`'s use of it.  Operations that can raise in Python
(`list[i]`, `str[0]`) are modelled with `Option`: `none` is an uncaught
exception.
-/

namespace Capitalize

/-- A Python string, modelled as its list of characters. -/
abbrev Str := List Char

/-- Character list of a Lean string literal. -/
def strL (s : String) : Str := s.data

/-- Model of Python `str.lower` on one character (ASCII range). -/
def lowChar (c : Char) : Char :=
  if 65 ≤ c.toNat ∧ c.toNat ≤ 90 then Char.ofNat (c.toNat + 32) else c

/-- Model of Python `str.upper` on one character (ASCII range). -/
def upChar (c : Char) : Char :=
  if 97 ≤ c.toNat ∧ c.toNat ≤ 122 then Char.ofNat (c.toNat - 32) else c

/-- Model of Python `str.isupper` on one character (ASCII range). -/
def isUpperCh (c : Char) : Bool := 65 ≤ c.toNat ∧ c.toNat ≤ 90

/-- A cased character (ASCII letter); used by the `str.title` model. -/
def isCasedCh (c : Char) : Bool :=
  (65 ≤ c.toNat ∧ c.toNat ≤ 90) ∨ (97 ≤ c.toNat ∧ c.toNat ≤ 122)

/-- Model of Python `str.lower`. -/
def pyLower (s : Str) : Str := s.map lowChar

/-- Model of Python `str.capitalize`: first character uppercased, the
rest lowercased. -/
def pyCapitalize : Str → Str
  | [] => []
  | c :: cs => upChar c :: pyLower cs

/-- Helper for `pyTitle`; the flag records whether the previous
character was cased. -/
def pyTitleAux : Bool → Str → Str
  | _, [] => []
  | prevCased, c :: cs =>
    (if prevCased then lowChar c else upChar c) :: pyTitleAux (isCasedCh c) cs

/-- Model of Python `str.title`: a character following a non-cased
character is uppercased, every other character is lowercased. -/
def pyTitle (s : Str) : Str := pyTitleAux false s

/-- Whether the first string starts the second. -/
def startsSeq : Str → Str → Bool
  | [], _ => true
  | _ :: _, [] => false
  | a :: as, b :: bs => a == b && startsSeq as bs

/-- Model of Python `needle in hay`: substring containment. -/
def containsSeq : Str → Str → Bool
  | needle, [] => needle.isEmpty
  | needle, c :: cs => startsSeq needle (c :: cs) || containsSeq needle cs

/-- Helper for `pySplit`; `cur` is the reversed current word. -/
def pySplitAux : Str → Str → List Str
  | cur, [] => if cur.isEmpty then [] else [cur.reverse]
  | cur, c :: cs =>
    if c.isWhitespace then
      if cur.isEmpty then pySplitAux [] cs else cur.reverse :: pySplitAux [] cs
    else pySplitAux (c :: cur) cs

/-- Model of Python `str.split()` with no argument: split on whitespace
runs, dropping empty pieces. -/
def pySplit (s : Str) : List Str := pySplitAux [] s

/-- Model of Python `' '.join`. -/
def joinSp : List Str → Str
  | [] => []
  | [w] => w
  | w :: ws => w ++ ' ' :: joinSp ws

/-- Maximal whitespace run at the front of a string, and the rest. -/
def takeWs : Str → Str × Str
  | [] => ([], [])
  | c :: cs =>
    if c.isWhitespace then
      let p := takeWs cs
      (c :: p.1, p.2)
    else ([], c :: cs)

/-- One of the sentence-terminating characters of the splitting pattern. -/
def isSentPunct (c : Char) : Bool := c = '.' ∨ c = '!' ∨ c = '?'

/-- Fuelled scanner for the sentence splitter; models
`re.split(r'([.!?]\s+)', text)`: a terminator character followed by a
maximal nonempty whitespace run is captured as its own piece.  `acc` is
the reversed current text piece; the fuel is at least the length of the
remaining input, so the fuel-exhausted branch is never taken. -/
def sentGoF : Nat → Str → Str → List Str
  | 0, acc, rest => [acc.reverse ++ rest]
  | _ + 1, acc, [] => [acc.reverse]
  | fuel + 1, acc, c :: cs =>
    if isSentPunct c then
      let p := takeWs cs
      if p.1.isEmpty then sentGoF fuel (c :: acc) cs
      else acc.reverse :: (c :: p.1) :: sentGoF fuel [] p.2
    else sentGoF fuel (c :: acc) cs

/-- Model of `re.split(r'([.!?]\s+)', text)`: the pieces concatenate
back to the input, delimiters kept as separate pieces. -/
def sentSplit (t : Str) : List Str := sentGoF t.length [] t

/-- The Name Store, abstracted as
`GeoCapitalizer.get_correct_capitalization`: the canonical form for a
queried string, or `none` when the database has no match. -/
def Lookup := Str → Option Str

/-- Model of `GeoCapitalizer.check_capitalization`: `none` when the name
is unknown, otherwise whether the text equals the canonical form,
paired with the canonical form. -/
def checkCapitalization (g : Lookup) (text : Str) : Option (Bool × Str) :=
  match g text with
  | none => none
  | some correctForm => some (text == correctForm, correctForm)

/-- `rules['days']`. -/
def days : List Str :=
  ["monday", "tuesday", "wednesday", "thursday", "friday", "saturday",
   "sunday"].map strL

/-- `rules['months']`. -/
def months : List Str :=
  ["january", "february", "march", "april", "may", "june", "july",
   "august", "september", "october", "november", "december"].map strL

/-- `rules['holidays']`. -/
def holidays : List Str :=
  ["christmas", "easter", "thanksgiving", "halloween", "valentine",
   "independence day", "new year"].map strL

/-- `rules['languages']`. -/
def languages : List Str :=
  ["english", "spanish", "french", "german", "italian", "chinese",
   "japanese", "russian", "arabic"].map strL

/-- `rules['military_ranks']`. -/
def militaryRanks : List Str :=
  ["captain", "colonel", "general", "lieutenant", "sergeant", "major",
   "admiral", "commander"].map strL

/-- `rules['titles']`. -/
def titles : List Str :=
  ["president", "senator", "governor", "mayor", "doctor", "professor",
   "judge", "reverend"].map strL

/-- `rules['religions']`. -/
def religions : List Str :=
  ["christianity", "islam", "judaism", "buddhism", "hinduism"].map strL

/-- `rules['deities']`. -/
def deities : List Str := ["god", "allah", "buddha", "jesus", "christ"].map strL

/-- The literal subset tested inside the deity branch of `check_word`. -/
def deitySubset : List Str := ["god", "allah", "jesus", "christ", "buddha"].map strL

/-- `lowercase_terms['seasons']`. -/
def seasons : List Str := ["spring", "summer", "fall", "autumn", "winter"].map strL

/-- `lowercase_terms['directions']`. -/
def directions : List Str :=
  ["north", "south", "east", "west", "northern", "southern", "eastern",
   "western"].map strL

/-- The result triple of `check_word`:
`(needs_correction, correct_form, reason)`. -/
abbrev Decision := Bool × Str × Str

/-- Priority 2 of `check_word` (days); `none` means fall through. -/
def dayRule (word wl : Str) : Option Decision :=
  if wl ∈ days then
    if word ≠ pyCapitalize wl then some (true, pyCapitalize wl, strL "Day of week") else none
  else none

/-- Priority 3 of `check_word` (months). -/
def monthRule (word wl : Str) : Option Decision :=
  if wl ∈ months then
    if word ≠ pyCapitalize wl then some (true, pyCapitalize wl, strL "Month") else none
  else none

/-- Priority 4 of `check_word`: the loop over holiday terms.  A term
fires when it equals the lowercased word or occurs inside the
lowercased context; the loop keeps going when the word already equals
its title-case form. -/
def holidayLoop (word wl ctxl : Str) : List Str → Option Decision
  | [] => none
  | h :: hs =>
    if wl == h || containsSeq h ctxl then
      if word ≠ pyTitle wl then some (true, pyTitle wl, strL "Holiday")
      else holidayLoop word wl ctxl hs
    else holidayLoop word wl ctxl hs

/-- Priority 5 of `check_word` (languages). -/
def languageRule (word wl : Str) : Option Decision :=
  if wl ∈ languages then
    if word ≠ pyCapitalize wl then some (true, pyCapitalize wl, strL "Language") else none
  else none

/-- Priority 6 of `check_word` (military ranks and titles before a
name).  `list.index` is modelled by `findIdx?` (its `ValueError` is
caught in the source and falls through), the guarded `context_words[i+1]`
by `get?`.  The outer `none` models the uncaught `IndexError` of
`next_word[0]` on an empty token, `some none` is fall-through. -/
def rankTitleRule (word wl context : Str) : Option (Option Decision) :=
  if wl ∈ militaryRanks ∨ wl ∈ titles then
    match (pySplit context).findIdx? (fun t => t == word) with
    | none => some none
    | some wordIndex =>
      match (pySplit context).get? (wordIndex + 1) with
      | none => some none
      | some [] => none
      | some (c :: _) =>
          if isUpperCh c then
            if word ≠ pyCapitalize wl then
              some (some (true, pyCapitalize wl,
                (if wl ∈ militaryRanks then strL "Military rank" else strL "Title")
                  ++ strL " before name"))
            else some none
          else some none
  else some none

/-- Priority 7 of `check_word` (religions). -/
def religionRule (word wl : Str) : Option Decision :=
  if wl ∈ religions then
    if word ≠ pyCapitalize wl then some (true, pyCapitalize wl, strL "Religion") else none
  else none

/-- Priority 8 of `check_word` (deities; only the fixed subset fires). -/
def deityRule (word wl : Str) : Option Decision :=
  if wl ∈ deities then
    if wl ∈ deitySubset then
      if word ≠ pyCapitalize wl then some (true, pyCapitalize wl, strL "Deity") else none
    else none
  else none

/-- Season branch of `check_word` (forced lowercase). -/
def seasonRule (word wl : Str) : Option Decision :=
  if wl ∈ seasons then
    if word ≠ wl then some (true, wl, strL "Season (lowercase)") else none
  else none

/-- Model of `IntegratedCapitalizer.check_word`.  The geographic rule
returns immediately on any match; the lexical rules fall through in
priority order; the direction branch of the source is a no-op.  `none`
models an uncaught exception. -/
def checkWord (g : Lookup) (word context : Str) : Option Decision :=
  match checkCapitalization g word with
  | some (isCorrect, correctForm) =>
    if isCorrect = false then some (true, correctForm, strL "Geographic name")
    else some (false, word, strL "Correct")
  | none =>
    match dayRule word (pyLower word) with
    | some r => some r
    | none =>
      match monthRule word (pyLower word) with
      | some r => some r
      | none =>
        match holidayLoop word (pyLower word) (pyLower context) holidays with
        | some r => some r
        | none =>
          match languageRule word (pyLower word) with
          | some r => some r
          | none =>
            match rankTitleRule word (pyLower word) context with
            | none => none
            | some (some r) => some r
            | some none =>
              match religionRule word (pyLower word) with
              | some r => some r
              | none =>
                match deityRule word (pyLower word) with
                | some r => some r
                | none =>
                  match seasonRule word (pyLower word) with
                  | some r => some r
                  | none => some (false, word, strL "Correct")

/-- One proposed edit, as produced by `check_phrase`. -/
structure Correction where
  position : Nat
  original : Str
  correct : Str
  reason : Str
deriving DecidableEq, Repr

/-- The multi-word span test of `check_phrase` at start index `i` for a
span of `k` tokens (`k` is 3 or 2): when the span fits, is a known
geographic name, and differs from its canonical form, the whole span is
turned into one correction at position `i`; a matched-but-correct span
falls through like an unknown one. -/
def trySpan (g : Lookup) (words : List Str) (i k : Nat) (reason : Str) : Option Correction :=
  if i + (k - 1) < words.length then
    match checkCapitalization g (joinSp ((words.drop i).take k)) with
    | some (isCorrect, correctForm) =>
      if isCorrect = false then
        some ⟨i, joinSp ((words.drop i).take k), correctForm, reason⟩
      else none
    | none => none
  else none

/-- One iteration of the `check_phrase` loop at start index `i`:
try the 3-token span, then the 2-token span, then the single word.
A taken multi-token span skips the shorter tests at the same index (the
source's `continue`).  Outer `none` models an exception; the inner
option is the at most one correction appended at this index. -/
def scanAt (g : Lookup) (phrase : Str) (words : List Str) (i : Nat) :
    Option (Option Correction) :=
  match trySpan g words i 3 (strL "Geographic name (3 words)") with
  | some c => some (some c)
  | none =>
    match trySpan g words i 2 (strL "Geographic name (2 words)") with
    | some c => some (some c)
    | none =>
      match words.get? i with
      | none => none
      | some word =>
        match checkWord g word phrase with
        | none => none
        | some (needsCorrection, correctForm, reason) =>
          some (if needsCorrection then some ⟨i, word, correctForm, reason⟩ else none)

/-- The `check_phrase` loop from index `i` for `k` more iterations,
collecting the appended corrections in order. -/
def scanFrom (g : Lookup) (phrase : Str) (words : List Str) :
    Nat → Nat → Option (List Correction)
  | 0, _ => some []
  | k + 1, i =>
    match scanAt g phrase words i with
    | none => none
    | some oc =>
      match scanFrom g phrase words k (i + 1) with
      | none => none
      | some rest => some (match oc with | some c => c :: rest | none => rest)

/-- Model of `IntegratedCapitalizer.check_phrase`. -/
def checkPhrase (g : Lookup) (phrase : Str) : Option (List Correction) :=
  let words := pySplit phrase
  scanFrom g phrase words words.length 0

/-- Stable insertion for descending sort by position: the new element
goes after every element with a strictly larger position and before the
first one with an equal or smaller position. -/
def insertByPos (c : Correction) : List Correction → List Correction
  | [] => [c]
  | d :: ds => if c.position < d.position then d :: insertByPos c ds else c :: d :: ds

/-- Model of `sorted(corrections, key=position, reverse=True)`:
stable descending sort by position. -/
def sortByPosDesc : List Correction → List Correction
  | [] => []
  | c :: cs => insertByPos c (sortByPosDesc cs)

/-- Model of `words[i] = x`: `none` models the `IndexError` raised when
`i` is out of bounds. -/
def setTok (ws : List Str) (i : Nat) (x : Str) : Option (List Str) :=
  if i < ws.length then some (ws.set i x) else none

/-- The substitution loop of `correct_text`: for each correction,
re-split the current sentence, overwrite the token at the correction's
position with the replacement, and rejoin with single spaces. -/
def applyCorrections : Str → List Correction → Option Str
  | corrected, [] => some corrected
  | corrected, c :: cs =>
    match setTok (pySplit corrected) c.position c.correct with
    | none => none
    | some ws => applyCorrections (joinSp ws) cs

/-- One iteration of the sentence loop of `correct_text`:
whitespace-only pieces pass through unchanged; otherwise the piece is
scanned and its corrections are applied in descending position order,
which is also the order they are appended to the change list. -/
def correctSentence (g : Lookup) (s : Str) : Option (Str × List Correction) :=
  if s.all Char.isWhitespace then some (s, [])
  else
    match checkPhrase g s with
    | none => none
    | some corrections =>
      match applyCorrections s (sortByPosDesc corrections) with
      | none => none
      | some corrected => some (corrected, sortByPosDesc corrections)

/-- The sentence loop of `correct_text` over the split pieces,
concatenating corrected pieces and accumulating changes in order. -/
def correctSentences (g : Lookup) : List Str → Option (Str × List Correction)
  | [] => some ([], [])
  | s :: ss =>
    match correctSentence g s with
    | none => none
    | some (corrected, changed) =>
      match correctSentences g ss with
      | none => none
      | some (rest, restChanged) => some (corrected ++ rest, changed ++ restChanged)

/-- Model of `IntegratedCapitalizer.correct_text`. -/
def correctText (g : Lookup) (text : Str) : Option (Str × List Correction) :=
  correctSentences g (sentSplit text)

/-- Model of the result dictionary of `analyze_text`. -/
structure Analysis where
  original : Str
  corrected : Str
  changes : List Correction
  stats : List (Str × Nat)
  total : Nat
deriving DecidableEq, Repr

/-- One step of the stats accumulation: bump the count of a reason in an
insertion-ordered association list (a Python dict). -/
def bumpStat : List (Str × Nat) → Str → List (Str × Nat)
  | [], r => [(r, 1)]
  | (k, v) :: rest, r =>
    if k == r then (k, v + 1) :: rest else (k, v) :: bumpStat rest r

/-- `stats` of `analyze_text`: per-reason counts in insertion order. -/
def buildStats (cs : List Correction) : List (Str × Nat) :=
  cs.foldl (fun acc c => bumpStat acc c.reason) []

/-- Model of `IntegratedCapitalizer.analyze_text`. -/
def analyzeText (g : Lookup) (text : Str) : Option Analysis :=
  match correctText g text with
  | none => none
  | some (corrected, changes) =>
    some ⟨text, corrected, changes, buildStats changes, changes.length⟩

/-! ### Character-level lemmas -/

theorem toNat_ofNat_small (n : Nat) (h : n < 0xd800) : (Char.ofNat n).toNat = n := by
  have hv : n.isValidChar := Or.inl h
  simp [Char.ofNat, hv, Char.ofNatAux, Char.toNat, UInt32.toNat]

theorem char_eq_of_toNat {a b : Char} (h : a.toNat = b.toNat) : a = b := by
  have := congrArg Char.ofNat h
  rwa [Char.ofNat_toNat, Char.ofNat_toNat] at this

theorem char_lt_valid (c : Char) : c.toNat < 0x110000 := by
  rcases c.valid with h | h
  · exact Nat.lt_trans h (by norm_num)
  · exact h.2

theorem lowChar_toNat (c : Char) :
    (lowChar c).toNat = if 65 ≤ c.toNat ∧ c.toNat ≤ 90 then c.toNat + 32 else c.toNat := by
  unfold lowChar
  split
  case isTrue h => rw [toNat_ofNat_small] ; omega
  case isFalse h => simp

theorem upChar_toNat (c : Char) :
    (upChar c).toNat = if 97 ≤ c.toNat ∧ c.toNat ≤ 122 then c.toNat - 32 else c.toNat := by
  unfold upChar
  split
  case isTrue h => rw [toNat_ofNat_small] ; omega
  case isFalse h => simp

theorem lowChar_upChar (c : Char) : lowChar (upChar c) = lowChar c := by
  apply char_eq_of_toNat
  rw [lowChar_toNat, lowChar_toNat, upChar_toNat]
  by_cases h : 97 ≤ c.toNat ∧ c.toNat ≤ 122
  · simp only [if_pos h]
    rw [if_pos (show 65 ≤ c.toNat - 32 ∧ c.toNat - 32 ≤ 90 by omega),
      if_neg (show ¬(65 ≤ c.toNat ∧ c.toNat ≤ 90) by omega)]
    omega
  · simp only [if_neg h]

theorem lowChar_lowChar (c : Char) : lowChar (lowChar c) = lowChar c := by
  apply char_eq_of_toNat
  rw [lowChar_toNat, lowChar_toNat]
  by_cases h : 65 ≤ c.toNat ∧ c.toNat ≤ 90
  · simp only [if_pos h]
    rw [if_neg (show ¬(65 ≤ c.toNat + 32 ∧ c.toNat + 32 ≤ 90) by omega)]
  · simp only [if_neg h]

/-! ### Lowercase is invariant under the capitalization transforms -/

theorem pyLower_pyLower (s : Str) : pyLower (pyLower s) = pyLower s := by
  unfold pyLower
  rw [List.map_map]
  exact List.map_congr_left (fun c _ => lowChar_lowChar c)

theorem pyLower_pyCapitalize (s : Str) : pyLower (pyCapitalize s) = pyLower s := by
  cases s with
  | nil => rfl
  | cons c cs =>
    show lowChar (upChar c) :: pyLower (pyLower cs) = lowChar c :: pyLower cs
    rw [lowChar_upChar, pyLower_pyLower]

theorem pyLower_pyTitleAux (b : Bool) (s : Str) : pyLower (pyTitleAux b s) = pyLower s := by
  induction s generalizing b with
  | nil => rfl
  | cons c cs ih =>
    cases b with
    | true =>
      show lowChar (lowChar c) :: pyLower (pyTitleAux (isCasedCh c) cs) = lowChar c :: pyLower cs
      rw [ih, lowChar_lowChar]
    | false =>
      show lowChar (upChar c) :: pyLower (pyTitleAux (isCasedCh c) cs) = lowChar c :: pyLower cs
      rw [ih, lowChar_upChar]

theorem pyLower_pyTitle (s : Str) : pyLower (pyTitle s) = pyLower s :=
  pyLower_pyTitleAux false s

/-! ### Tokenization lemmas -/

theorem pySplitAux_ne_nil (s cur : Str) : ∀ w ∈ pySplitAux cur s, w ≠ [] := by
  induction s generalizing cur with
  | nil =>
    intro w hw
    unfold pySplitAux at hw
    split at hw
    · simp at hw
    · next hcur =>
      simp at hw
      subst hw
      simpa [List.isEmpty_iff] using hcur
  | cons c cs ih =>
    intro w hw
    unfold pySplitAux at hw
    split at hw
    · split at hw
      · exact ih [] w hw
      · next hcur =>
        rcases List.mem_cons.mp hw with h | h
        · subst h
          simpa [List.isEmpty_iff] using hcur
        · exact ih [] w h
    · exact ih (c :: cur) w hw

theorem pySplit_ne_nil (s : Str) : ∀ w ∈ pySplit s, w ≠ [] :=
  pySplitAux_ne_nil s []

theorem pySplitAux_no_ws (s cur : Str) (hcur : ∀ ch ∈ cur, ch.isWhitespace = false) :
    ∀ w ∈ pySplitAux cur s, ∀ ch ∈ w, ch.isWhitespace = false := by
  induction s generalizing cur with
  | nil =>
    intro w hw
    unfold pySplitAux at hw
    split at hw
    · simp at hw
    · simp at hw
      subst hw
      intro ch hch
      exact hcur ch (List.mem_reverse.mp hch)
  | cons c cs ih =>
    intro w hw
    unfold pySplitAux at hw
    split at hw
    · split at hw
      · exact ih [] (by simp) w hw
      · rcases List.mem_cons.mp hw with h | h
        · subst h
          intro ch hch
          exact hcur ch (List.mem_reverse.mp hch)
        · exact ih [] (by simp) w h
    · next hws =>
      refine ih (c :: cur) ?_ w hw
      intro ch hch
      rcases List.mem_cons.mp hch with h | h
      · subst h
        exact Bool.not_eq_true _ ▸ hws
      · exact hcur ch h

theorem pySplit_no_ws (s : Str) : ∀ w ∈ pySplit s, ∀ ch ∈ w, ch.isWhitespace = false :=
  pySplitAux_no_ws s [] (by simp)

theorem pySplitAux_token (w : Str) : ∀ cur : Str, cur ≠ [] →
    (∀ ch ∈ w, ch.isWhitespace = false) → pySplitAux cur w = [cur.reverse ++ w] := by
  induction w with
  | nil =>
    intro cur hcur _
    show (if cur.isEmpty then [] else [cur.reverse]) = [cur.reverse ++ []]
    rw [if_neg (by simpa [List.isEmpty_iff] using hcur)]
    simp
  | cons c cs ih =>
    intro cur hcur hw
    show (if c.isWhitespace then _ else pySplitAux (c :: cur) cs) = [cur.reverse ++ c :: cs]
    rw [if_neg (by simpa using hw c (by simp))]
    rw [ih (c :: cur) (by simp) (fun ch hch => hw ch (by simp [hch]))]
    simp

theorem pySplit_token (w : Str) (hne : w ≠ []) (hw : ∀ ch ∈ w, ch.isWhitespace = false) :
    pySplit w = [w] := by
  cases w with
  | nil => exact absurd rfl hne
  | cons c cs =>
    show (if c.isWhitespace then _ else pySplitAux [c] cs) = [c :: cs]
    rw [if_neg (by simpa using hw c (by simp))]
    rw [pySplitAux_token cs [c] (by simp) (fun ch hch => hw ch (by simp [hch]))]
    simp

theorem pySplitAux_append_space (a b : Str) : ∀ cur : Str,
    pySplitAux cur (a ++ ' ' :: b) = pySplitAux cur a ++ pySplitAux [] b := by
  induction a with
  | nil =>
    intro cur
    show (if (' ' : Char).isWhitespace then
        (if cur.isEmpty then pySplitAux [] b else cur.reverse :: pySplitAux [] b)
      else _) = (if cur.isEmpty then [] else [cur.reverse]) ++ pySplitAux [] b
    rw [if_pos (by decide)]
    by_cases hcur : cur.isEmpty
    · rw [if_pos hcur, if_pos hcur]
      simp
    · rw [if_neg hcur, if_neg hcur]
      simp
  | cons c cs ih =>
    intro cur
    show (if c.isWhitespace then
        (if cur.isEmpty then pySplitAux [] (cs ++ ' ' :: b)
          else cur.reverse :: pySplitAux [] (cs ++ ' ' :: b))
      else pySplitAux (c :: cur) (cs ++ ' ' :: b)) = _
    show _ = (if c.isWhitespace then
        (if cur.isEmpty then pySplitAux [] cs else cur.reverse :: pySplitAux [] cs)
      else pySplitAux (c :: cur) cs) ++ pySplitAux [] b
    by_cases hws : c.isWhitespace
    · rw [if_pos hws, if_pos hws]
      by_cases hcur : cur.isEmpty
      · rw [if_pos hcur, if_pos hcur, ih]
      · rw [if_neg hcur, if_neg hcur, ih]
        simp
    · rw [if_neg hws, if_neg hws, ih]

theorem pySplit_joinSp (l : List Str) : pySplit (joinSp l) = (l.map pySplit).flatten := by
  induction l with
  | nil => rfl
  | cons x xs ih =>
    cases xs with
    | nil => simp [joinSp]
    | cons y ys =>
      show pySplit (x ++ ' ' :: joinSp (y :: ys)) = _
      unfold pySplit at *
      rw [pySplitAux_append_space, ih]
      simp

/-! ### Sentence splitter lemmas -/

theorem takeWs_append (s : Str) : (takeWs s).1 ++ (takeWs s).2 = s := by
  induction s with
  | nil => rfl
  | cons c cs ih =>
    simp only [takeWs]
    by_cases h : c.isWhitespace
    · simp only [if_pos h]
      simpa using ih
    · simp only [if_neg h]
      rfl

theorem takeWs_rest_le (s : Str) : (takeWs s).2.length ≤ s.length := by
  conv_rhs => rw [← takeWs_append s]
  simp

theorem sentGoF_join (f : Nat) : ∀ acc s : Str, s.length ≤ f →
    (sentGoF f acc s).flatten = acc.reverse ++ s := by
  induction f with
  | zero =>
    intro acc s _
    show ([acc.reverse ++ s]).flatten = _
    simp
  | succ f ih =>
    intro acc s hlen
    cases s with
    | nil => simp [sentGoF]
    | cons c cs =>
      show (if isSentPunct c then
          (if (takeWs cs).1.isEmpty then sentGoF f (c :: acc) cs
            else acc.reverse :: (c :: (takeWs cs).1) :: sentGoF f [] (takeWs cs).2)
        else sentGoF f (c :: acc) cs).flatten = acc.reverse ++ c :: cs
      have hcs : cs.length ≤ f := by simpa using hlen
      by_cases hp : isSentPunct c
      · rw [if_pos hp]
        by_cases hws : (takeWs cs).1.isEmpty
        · rw [if_pos hws, ih (c :: acc) cs hcs]
          simp
        · rw [if_neg hws]
          have hrest : (takeWs cs).2.length ≤ f := le_trans (takeWs_rest_le cs) hcs
          show acc.reverse ++ ((c :: (takeWs cs).1) ++ (sentGoF f [] (takeWs cs).2).flatten)
            = acc.reverse ++ c :: cs
          rw [ih [] (takeWs cs).2 hrest]
          simp [takeWs_append cs]
      · rw [if_neg hp, ih (c :: acc) cs hcs]
        simp

theorem sentSplit_join (t : Str) : (sentSplit t).flatten = t := by
  simpa using sentGoF_join t.length [] t le_rfl

/-! ### Rule inversion and skip lemmas -/

theorem dayRule_inv {word wl : Str} {d : Decision} (h : dayRule word wl = some d) :
    d = (true, pyCapitalize wl, strL "Day of week") ∧ wl ∈ days ∧ word ≠ pyCapitalize wl := by
  unfold dayRule at h
  split at h
  · split at h
    · exact ⟨(Option.some_inj.mp h).symm, by assumption, by assumption⟩
    · exact absurd h (by simp)
  · exact absurd h (by simp)

theorem dayRule_skip {word wl : Str} (h : wl ∉ days ∨ word = pyCapitalize wl) :
    dayRule word wl = none := by
  unfold dayRule
  rcases h with h | h
  · rw [if_neg h]
  · split
    · rw [if_neg (by simpa using h)]
    · rfl

theorem monthRule_inv {word wl : Str} {d : Decision} (h : monthRule word wl = some d) :
    d = (true, pyCapitalize wl, strL "Month") ∧ wl ∈ months ∧ word ≠ pyCapitalize wl := by
  unfold monthRule at h
  split at h
  · split at h
    · exact ⟨(Option.some_inj.mp h).symm, by assumption, by assumption⟩
    · exact absurd h (by simp)
  · exact absurd h (by simp)

theorem monthRule_skip {word wl : Str} (h : wl ∉ months ∨ word = pyCapitalize wl) :
    monthRule word wl = none := by
  unfold monthRule
  rcases h with h | h
  · rw [if_neg h]
  · split
    · rw [if_neg (by simpa using h)]
    · rfl

theorem languageRule_inv {word wl : Str} {d : Decision} (h : languageRule word wl = some d) :
    d = (true, pyCapitalize wl, strL "Language") ∧ wl ∈ languages ∧ word ≠ pyCapitalize wl := by
  unfold languageRule at h
  split at h
  · split at h
    · exact ⟨(Option.some_inj.mp h).symm, by assumption, by assumption⟩
    · exact absurd h (by simp)
  · exact absurd h (by simp)

theorem languageRule_skip {word wl : Str} (h : wl ∉ languages ∨ word = pyCapitalize wl) :
    languageRule word wl = none := by
  unfold languageRule
  rcases h with h | h
  · rw [if_neg h]
  · split
    · rw [if_neg (by simpa using h)]
    · rfl

theorem religionRule_inv {word wl : Str} {d : Decision} (h : religionRule word wl = some d) :
    d = (true, pyCapitalize wl, strL "Religion") ∧ wl ∈ religions ∧ word ≠ pyCapitalize wl := by
  unfold religionRule at h
  split at h
  · split at h
    · exact ⟨(Option.some_inj.mp h).symm, by assumption, by assumption⟩
    · exact absurd h (by simp)
  · exact absurd h (by simp)

theorem religionRule_skip {word wl : Str} (h : wl ∉ religions ∨ word = pyCapitalize wl) :
    religionRule word wl = none := by
  unfold religionRule
  rcases h with h | h
  · rw [if_neg h]
  · split
    · rw [if_neg (by simpa using h)]
    · rfl

theorem deityRule_inv {word wl : Str} {d : Decision} (h : deityRule word wl = some d) :
    d = (true, pyCapitalize wl, strL "Deity") ∧ wl ∈ deities ∧ wl ∈ deitySubset
      ∧ word ≠ pyCapitalize wl := by
  unfold deityRule at h
  split at h
  · split at h
    · split at h
      · exact ⟨(Option.some_inj.mp h).symm, by assumption, by assumption, by assumption⟩
      · exact absurd h (by simp)
    · exact absurd h (by simp)
  · exact absurd h (by simp)

theorem deityRule_skip {word wl : Str} (h : wl ∉ deities ∨ word = pyCapitalize wl) :
    deityRule word wl = none := by
  unfold deityRule
  rcases h with h | h
  · rw [if_neg h]
  · split
    · split
      · rw [if_neg (by simpa using h)]
      · rfl
    · rfl

theorem seasonRule_inv {word wl : Str} {d : Decision} (h : seasonRule word wl = some d) :
    d = (true, wl, strL "Season (lowercase)") ∧ wl ∈ seasons ∧ word ≠ wl := by
  unfold seasonRule at h
  split at h
  · split at h
    · exact ⟨(Option.some_inj.mp h).symm, by assumption, by assumption⟩
    · exact absurd h (by simp)
  · exact absurd h (by simp)

theorem seasonRule_skip {word wl : Str} (h : wl ∉ seasons ∨ word = wl) :
    seasonRule word wl = none := by
  unfold seasonRule
  rcases h with h | h
  · rw [if_neg h]
  · split
    · rw [if_neg (by simpa using h)]
    · rfl

theorem holidayLoop_inv {word wl ctxl : Str} {d : Decision} : ∀ {hs : List Str},
    holidayLoop word wl ctxl hs = some d →
    d = (true, pyTitle wl, strL "Holiday") ∧ word ≠ pyTitle wl
      ∧ ∃ h ∈ hs, wl = h ∨ containsSeq h ctxl = true := by
  intro hs
  induction hs with
  | nil => intro h ; exact absurd h (by simp [holidayLoop])
  | cons a as ih =>
    intro h
    unfold holidayLoop at h
    split at h
    · next hcond =>
      split at h
      · refine ⟨(Option.some_inj.mp h).symm, by assumption, a, by simp, ?_⟩
        rcases Bool.or_eq_true_iff.mp hcond with hc | hc
        · exact Or.inl (by simpa using hc)
        · exact Or.inr hc
      · rcases ih h with ⟨hd, hne, b, hb, hcase⟩
        exact ⟨hd, hne, b, by simp [hb], hcase⟩
    · rcases ih h with ⟨hd, hne, b, hb, hcase⟩
      exact ⟨hd, hne, b, by simp [hb], hcase⟩

theorem holidayLoop_skip {word wl ctxl : Str} : ∀ {hs : List Str},
    (word = pyTitle wl ∨ ∀ h ∈ hs, wl ≠ h ∧ containsSeq h ctxl = false) →
    holidayLoop word wl ctxl hs = none := by
  intro hs
  induction hs with
  | nil => intro _ ; rfl
  | cons a as ih =>
    intro hcond
    unfold holidayLoop
    rcases hcond with heq | hall
    · split
      · rw [if_neg (by simpa using heq)]
        exact ih (Or.inl heq)
      · exact ih (Or.inl heq)
    · have ha := hall a (by simp)
      rw [if_neg (by simp [ha.2] ; simpa using ha.1)]
      exact ih (Or.inr (fun h hh => hall h (by simp [hh])))

theorem holidayLoop_fire {word wl ctxl : Str} (hne : word ≠ pyTitle wl) : ∀ {hs : List Str},
    (∃ h ∈ hs, wl = h ∨ containsSeq h ctxl = true) →
    holidayLoop word wl ctxl hs = some (true, pyTitle wl, strL "Holiday") := by
  intro hs
  induction hs with
  | nil => intro h ; simp at h
  | cons a as ih =>
    intro hex
    unfold holidayLoop
    by_cases hcond : (wl == a || containsSeq a ctxl) = true
    · rw [if_pos hcond, if_pos hne]
    · rw [if_neg hcond]
      rcases hex with ⟨b, hb, hcase⟩
      rcases List.mem_cons.mp hb with rfl | hbs
      · exfalso
        apply hcond
        rcases hcase with hc | hc
        · simp [hc]
        · simp [hc]
      · exact ih ⟨b, hbs, hcase⟩

theorem rankTitleRule_inv {word wl context : Str} {d : Decision}
    (h : rankTitleRule word wl context = some (some d)) :
    d = (true, pyCapitalize wl,
        (if wl ∈ militaryRanks then strL "Military rank" else strL "Title") ++ strL " before name")
      ∧ (wl ∈ militaryRanks ∨ wl ∈ titles) ∧ word ≠ pyCapitalize wl := by
  unfold rankTitleRule at h
  split at h
  · split at h
    · exact absurd h (by simp)
    · split at h
      · exact absurd h (by simp)
      · exact absurd h (by simp)
      · split at h
        · split at h
          · exact ⟨by simpa using (Option.some_inj.mp h).symm, by assumption, by assumption⟩
          · exact absurd h (by simp)
        · exact absurd h (by simp)
  · exact absurd h (by simp)

theorem rankTitleRule_skip {word wl context : Str}
    (h : (wl ∉ militaryRanks ∧ wl ∉ titles) ∨ word = pyCapitalize wl) :
    rankTitleRule word wl context = some none := by
  unfold rankTitleRule
  rcases h with ⟨h1, h2⟩ | h
  · rw [if_neg (by simp [h1, h2])]
  · split
    · split
      · rfl
      · split
        · rfl
        · rename_i heq
          exact absurd rfl (pySplit_ne_nil context [] (List.get?_mem heq))
        · split
          · rw [if_neg (by simpa using h)]
          · rfl
    · rfl

theorem rankTitleRule_ne_none {word wl context : Str} :
    rankTitleRule word wl context ≠ none := by
  unfold rankTitleRule
  split
  · split
    · simp
    · split
      · simp
      · rename_i heq
        exact absurd rfl (pySplit_ne_nil context [] (List.get?_mem heq))
      · split
        · split <;> simp
        · simp
  · simp

/-! ### Word resolver totality -/

theorem checkWord_isSome (g : Lookup) (word context : Str) :
    (checkWord g word context).isSome = true := by
  unfold checkWord
  cases hg : checkCapitalization g word with
  | some p =>
    obtain ⟨isCorrect, correctForm⟩ := p
    dsimp only
    split <;> simp
  | none =>
    dsimp only
    cases h1 : dayRule word (pyLower word) with
    | some r => simp
    | none =>
    dsimp only
    cases h2 : monthRule word (pyLower word) with
    | some r => simp
    | none =>
    dsimp only
    cases h3 : holidayLoop word (pyLower word) (pyLower context) holidays with
    | some r => simp
    | none =>
    dsimp only
    cases h4 : languageRule word (pyLower word) with
    | some r => simp
    | none =>
    dsimp only
    cases h5 : rankTitleRule word (pyLower word) context with
    | none => exact absurd h5 rankTitleRule_ne_none
    | some o =>
      cases o with
      | some r => simp
      | none =>
        dsimp only
        cases h6 : religionRule word (pyLower word) with
        | some r => simp
        | none =>
        dsimp only
        cases h7 : deityRule word (pyLower word) with
        | some r => simp
        | none =>
        dsimp only
        cases h8 : seasonRule word (pyLower word) with
        | some r => simp
        | none => simp

theorem checkWord_ne_none (g : Lookup) (word context : Str) :
    checkWord g word context ≠ none := by
  intro h
  have := checkWord_isSome g word context
  rw [h] at this
  exact absurd this (by simp)

/-! ### Phrase scanner lemmas -/

theorem trySpan_inv {g : Lookup} {words : List Str} {i k : Nat} {r : Str} {c : Correction}
    (h : trySpan g words i k r = some c) :
    i + (k - 1) < words.length
      ∧ checkCapitalization g (joinSp ((words.drop i).take k)) = some (false, c.correct)
      ∧ c = ⟨i, joinSp ((words.drop i).take k), c.correct, r⟩ := by
  unfold trySpan at h
  split at h
  · split at h
    · rename_i isC cf heq
      split at h
      · rename_i hfalse
        cases Option.some_inj.mp h
        exact ⟨by assumption, by rw [heq, hfalse], rfl⟩
      · exact absurd h (by simp)
    · exact absurd h (by simp)
  · exact absurd h (by simp)

theorem trySpan_fire {g : Lookup} {words : List Str} {i k : Nat} {cf : Str} (r : Str)
    (hlen : i + (k - 1) < words.length)
    (hcc : checkCapitalization g (joinSp ((words.drop i).take k)) = some (false, cf)) :
    trySpan g words i k r = some ⟨i, joinSp ((words.drop i).take k), cf, r⟩ := by
  unfold trySpan
  rw [if_pos hlen, hcc]
  simp

theorem trySpan_skip {g : Lookup} {words : List Str} {i k : Nat} (r : Str)
    (h : ¬(i + (k - 1) < words.length
      ∧ ∃ cf, checkCapitalization g (joinSp ((words.drop i).take k)) = some (false, cf))) :
    trySpan g words i k r = none := by
  unfold trySpan
  split
  · split
    · rename_i isC cf heq
      split
      · rename_i hfalse
        exact absurd ⟨by assumption, cf, by rw [heq, hfalse]⟩ h
      · rfl
    · rfl
  · rfl

theorem scanAt_pos {g : Lookup} {phrase : Str} {words : List Str} {i : Nat} {c : Correction}
    (h : scanAt g phrase words i = some (some c)) : c.position = i := by
  unfold scanAt at h
  cases h3 : trySpan g words i 3 (strL "Geographic name (3 words)") with
  | some c1 =>
    rw [h3] at h
    simp at h
    subst h
    rw [(trySpan_inv h3).2.2]
  | none =>
    rw [h3] at h
    cases h2 : trySpan g words i 2 (strL "Geographic name (2 words)") with
    | some c1 =>
      rw [h2] at h
      simp at h
      subst h
      rw [(trySpan_inv h2).2.2]
    | none =>
      rw [h2] at h
      cases hw : words.get? i with
      | none => rw [hw] at h ; simp at h
      | some word =>
        rw [hw] at h
        dsimp only at h
        cases hcw : checkWord g word phrase with
        | none => rw [hcw] at h ; simp at h
        | some trip =>
          rw [hcw] at h
          obtain ⟨nc, cf, r⟩ := trip
          simp at h
          cases nc with
          | true =>
            simp at h
            subst h
            rfl
          | false => simp at h

theorem scanAt_isSome (g : Lookup) (phrase : Str) (words : List Str) (i : Nat)
    (hlt : i < words.length) : (scanAt g phrase words i).isSome = true := by
  unfold scanAt
  cases h3 : trySpan g words i 3 (strL "Geographic name (3 words)") with
  | some c => simp
  | none =>
    cases h2 : trySpan g words i 2 (strL "Geographic name (2 words)") with
    | some c => simp
    | none =>
      cases hw : words.get? i with
      | none =>
        rw [List.get?_eq_none] at hw
        omega
      | some word =>
        dsimp only
        cases hcw : checkWord g word phrase with
        | none => exact absurd hcw (checkWord_ne_none g word phrase)
        | some trip =>
          obtain ⟨nc, cf, r⟩ := trip
          simp

theorem scanFrom_sound {g : Lookup} {phrase : Str} {words : List Str} :
    ∀ (k i : Nat) (cs : List Correction), scanFrom g phrase words k i = some cs →
      (∀ c ∈ cs, i ≤ c.position ∧ c.position < i + k)
        ∧ cs.Pairwise (fun a b => a.position < b.position) := by
  intro k
  induction k with
  | zero =>
    intro i cs h
    cases Option.some_inj.mp h
    exact ⟨by simp, by simp⟩
  | succ k ih =>
    intro i cs h
    unfold scanFrom at h
    cases hoc : scanAt g phrase words i with
    | none => rw [hoc] at h ; simp at h
    | some oc =>
      rw [hoc] at h
      cases hrest : scanFrom g phrase words k (i + 1) with
      | none => rw [hrest] at h ; simp at h
      | some rest =>
        rw [hrest] at h
        dsimp only at h
        simp only [Option.some_inj] at h
        subst h
        rcases ih (i + 1) rest hrest with ⟨hbound, hpair⟩
        cases oc with
        | none =>
          refine ⟨fun c hc => ?_, hpair⟩
          rcases hbound c hc with ⟨hb1, hb2⟩
          exact ⟨by omega, by omega⟩
        | some c0 =>
          have hpos : c0.position = i := scanAt_pos hoc
          refine ⟨?_, ?_⟩
          · intro c hc
            rcases List.mem_cons.mp hc with rfl | hc
            · rw [hpos]
              exact ⟨le_rfl, by omega⟩
            · rcases hbound c hc with ⟨hb1, hb2⟩
              exact ⟨by omega, by omega⟩
          · refine List.pairwise_cons.mpr ⟨?_, hpair⟩
            intro c hc
            rw [hpos]
            exact lt_of_lt_of_le (by omega) (hbound c hc).1

theorem scanFrom_mem {g : Lookup} {phrase : Str} {words : List Str} :
    ∀ (k i : Nat) (cs : List Correction), scanFrom g phrase words k i = some cs →
      ∀ c ∈ cs, scanAt g phrase words c.position = some (some c) := by
  intro k
  induction k with
  | zero =>
    intro i cs h c hc
    cases Option.some_inj.mp h
    simp at hc
  | succ k ih =>
    intro i cs h c hc
    unfold scanFrom at h
    cases hoc : scanAt g phrase words i with
    | none => rw [hoc] at h ; simp at h
    | some oc =>
      rw [hoc] at h
      cases hrest : scanFrom g phrase words k (i + 1) with
      | none => rw [hrest] at h ; simp at h
      | some rest =>
        rw [hrest] at h
        dsimp only at h
        simp only [Option.some_inj] at h
        subst h
        cases oc with
        | none => exact ih (i + 1) rest hrest c hc
        | some c0 =>
          rcases List.mem_cons.mp hc with rfl | hc
          · rw [scanAt_pos hoc]
            exact hoc
          · exact ih (i + 1) rest hrest c hc

theorem scanFrom_complete {g : Lookup} {phrase : Str} {words : List Str} :
    ∀ (k i : Nat) (cs : List Correction), scanFrom g phrase words k i = some cs →
      ∀ j, i ≤ j → j < i + k → ∀ c, scanAt g phrase words j = some (some c) → c ∈ cs := by
  intro k
  induction k with
  | zero =>
    intro i cs _ j h1 h2
    omega
  | succ k ih =>
    intro i cs h j h1 h2 c hc
    unfold scanFrom at h
    cases hoc : scanAt g phrase words i with
    | none => rw [hoc] at h ; simp at h
    | some oc =>
      rw [hoc] at h
      cases hrest : scanFrom g phrase words k (i + 1) with
      | none => rw [hrest] at h ; simp at h
      | some rest =>
        rw [hrest] at h
        dsimp only at h
        simp only [Option.some_inj] at h
        subst h
        rcases Nat.eq_or_lt_of_le h1 with rfl | hlt
        · rw [hc] at hoc
          simp only [Option.some_inj] at hoc
          subst hoc
          simp
        · have hmem : c ∈ rest := ih (i + 1) rest hrest j (by omega) (by omega) c hc
          cases oc <;> simp [hmem]

theorem scanFrom_isSome {g : Lookup} {phrase : Str} {words : List Str} :
    ∀ (k i : Nat), i + k ≤ words.length → (scanFrom g phrase words k i).isSome = true := by
  intro k
  induction k with
  | zero => intro i _ ; simp [scanFrom]
  | succ k ih =>
    intro i hle
    unfold scanFrom
    cases hoc : scanAt g phrase words i with
    | none =>
      exfalso
      have h1 := scanAt_isSome g phrase words i (by omega)
      rw [hoc] at h1
      simp at h1
    | some oc =>
      cases hrest : scanFrom g phrase words k (i + 1) with
      | none =>
        exfalso
        have h2 := ih (i + 1) (by omega)
        rw [hrest] at h2
        simp at h2
      | some rest => simp

theorem checkPhrase_isSome (g : Lookup) (phrase : Str) :
    (checkPhrase g phrase).isSome = true := by
  unfold checkPhrase
  exact scanFrom_isSome (pySplit phrase).length 0 (by omega)

theorem checkPhrase_sound {g : Lookup} {phrase : Str} {cs : List Correction}
    (h : checkPhrase g phrase = some cs) :
    (∀ c ∈ cs, c.position < (pySplit phrase).length)
      ∧ cs.Pairwise (fun a b => a.position < b.position) := by
  unfold checkPhrase at h
  rcases scanFrom_sound _ 0 cs h with ⟨hbound, hpair⟩
  exact ⟨fun c hc => by simpa using (hbound c hc).2, hpair⟩

/-! ### Sorting lemmas -/

theorem insertByPos_all_lt {c : Correction} : ∀ {l : List Correction},
    (∀ d ∈ l, c.position < d.position) → insertByPos c l = l ++ [c] := by
  intro l
  induction l with
  | nil => intro _ ; rfl
  | cons d ds ih =>
    intro hall
    unfold insertByPos
    rw [if_pos (hall d (by simp))]
    rw [ih (fun e he => hall e (by simp [he]))]
    simp

theorem sortByPosDesc_of_increasing : ∀ {l : List Correction},
    l.Pairwise (fun a b => a.position < b.position) → sortByPosDesc l = l.reverse := by
  intro l
  induction l with
  | nil => intro _ ; rfl
  | cons c cs ih =>
    intro hp
    rcases List.pairwise_cons.mp hp with ⟨hhead, htail⟩
    show insertByPos c (sortByPosDesc cs) = _
    rw [ih htail, insertByPos_all_lt]
    · simp
    · intro d hd
      exact hhead d (List.mem_reverse.mp hd)

/-! ### Rewriter in-bounds machinery -/

/-- Every member is a nonempty whitespace-free token. -/
def TokenLike (ws : List Str) : Prop :=
  ∀ w ∈ ws, w ≠ [] ∧ ∀ ch ∈ w, ch.isWhitespace = false

theorem tokenLike_pySplit (s : Str) : TokenLike (pySplit s) :=
  fun w hw => ⟨pySplit_ne_nil s w hw, pySplit_no_ws s w hw⟩

theorem flatten_map_pySplit : ∀ {l : List Str},
    (∀ w ∈ l, pySplit w = [w]) → (l.map pySplit).flatten = l := by
  intro l
  induction l with
  | nil => intro _ ; rfl
  | cons w ws ih =>
    intro h
    show pySplit w ++ (ws.map pySplit).flatten = w :: ws
    rw [h w (by simp), ih (fun v hv => h v (by simp [hv]))]
    rfl

theorem pySplit_joinSp_set_length {ws : List Str} {p : Nat} (r : Str)
    (htok : TokenLike ws) (hp : p < ws.length) :
    ws.length - 1 ≤ (pySplit (joinSp (ws.set p r))).length := by
  rw [pySplit_joinSp, List.set_eq_take_cons_drop r hp]
  have htake : ((ws.take p).map pySplit).flatten = ws.take p := by
    refine flatten_map_pySplit (fun w hw => ?_)
    have hmem : w ∈ ws := List.mem_of_mem_take hw
    exact pySplit_token w (htok w hmem).1 (htok w hmem).2
  have hdrop : ((ws.drop (p + 1)).map pySplit).flatten = ws.drop (p + 1) := by
    refine flatten_map_pySplit (fun w hw => ?_)
    have hmem : w ∈ ws := List.mem_of_mem_drop hw
    exact pySplit_token w (htok w hmem).1 (htok w hmem).2
  rw [List.map_append, List.flatten_append, List.length_append, htake,
    List.map_cons, List.flatten_cons, List.length_append, hdrop,
    List.length_take, List.length_drop]
  omega

theorem applyCorrections_isSome : ∀ (cs : List Correction) (s : Str),
    (∀ (j : Nat) (h : j < cs.length), (cs.get ⟨j, h⟩).position + j < (pySplit s).length) →
    (applyCorrections s cs).isSome = true := by
  intro cs
  induction cs with
  | nil => intro s _ ; simp [applyCorrections]
  | cons c cs ih =>
    intro s hinv
    unfold applyCorrections
    have hc : c.position < (pySplit s).length := by
      have := hinv 0 (by simp)
      simpa using this
    rw [show setTok (pySplit s) c.position c.correct = some ((pySplit s).set c.position c.correct)
      from by unfold setTok ; rw [if_pos hc]]
    refine ih (joinSp ((pySplit s).set c.position c.correct)) ?_
    intro j hj
    have hstep := hinv (j + 1) (by simpa using Nat.succ_lt_succ hj)
    have hlen := pySplit_joinSp_set_length c.correct (tokenLike_pySplit s) hc
    have hget : (c :: cs).get ⟨j + 1, by simpa using Nat.succ_lt_succ hj⟩ = cs.get ⟨j, hj⟩ := rfl
    rw [hget] at hstep
    omega

theorem desc_invariant : ∀ (cs : List Correction) (n : Nat),
    cs.Pairwise (fun a b => b.position < a.position) → (∀ c ∈ cs, c.position < n) →
    ∀ (j : Nat) (h : j < cs.length), (cs.get ⟨j, h⟩).position + j < n := by
  intro cs
  induction cs with
  | nil => intro n _ _ j hj ; simp at hj
  | cons c cs ih =>
    intro n hpair hbound j hj
    rcases List.pairwise_cons.mp hpair with ⟨hhead, htail⟩
    cases j with
    | zero =>
      simpa using hbound c (by simp)
    | succ j =>
      have hj' : j < cs.length := by simpa using hj
      have := ih c.position htail (fun d hd => hhead d hd) j hj'
      have hcn : c.position < n := hbound c (by simp)
      have hget : (c :: cs).get ⟨j + 1, hj⟩ = cs.get ⟨j, hj'⟩ := rfl
      rw [hget]
      omega

/-! ### Totality of the sentence pipeline -/

theorem correctSentence_isSome (g : Lookup) (s : Str) :
    (correctSentence g s).isSome = true := by
  unfold correctSentence
  split
  · simp
  · cases hcp : checkPhrase g s with
    | none =>
      have := checkPhrase_isSome g s
      rw [hcp] at this
      simp at this
    | some corrections =>
      dsimp only
      rcases checkPhrase_sound hcp with ⟨hbound, hpair⟩
      have hsort : sortByPosDesc corrections = corrections.reverse :=
        sortByPosDesc_of_increasing hpair
      have hpair2 : (sortByPosDesc corrections).Pairwise
          (fun a b => b.position < a.position) := by
        rw [hsort]
        exact List.pairwise_reverse.mpr hpair
      have hbound2 : ∀ c ∈ sortByPosDesc corrections, c.position < (pySplit s).length := by
        intro c hc
        rw [hsort] at hc
        exact hbound c (List.mem_reverse.mp hc)
      have happ := applyCorrections_isSome (sortByPosDesc corrections) s
        (desc_invariant _ _ hpair2 hbound2)
      cases happly : applyCorrections s (sortByPosDesc corrections) with
      | none =>
        rw [happly] at happ
        simp at happ
      | some corrected => simp

theorem correctSentences_isSome (g : Lookup) : ∀ (pieces : List Str),
    (correctSentences g pieces).isSome = true := by
  intro pieces
  induction pieces with
  | nil => simp [correctSentences]
  | cons s ss ih =>
    unfold correctSentences
    cases hs : correctSentence g s with
    | none =>
      have := correctSentence_isSome g s
      rw [hs] at this
      simp at this
    | some p =>
      obtain ⟨corrected, changed⟩ := p
      dsimp only
      cases hss : correctSentences g ss with
      | none =>
        rw [hss] at ih
        simp at ih
      | some q => simp

/-! ### Pass-through lemmas for uncorrected text -/

theorem correctSentence_changes_nil {g : Lookup} {s corrected : Str}
    (h : correctSentence g s = some (corrected, [])) : corrected = s := by
  unfold correctSentence at h
  split at h
  · exact (Prod.mk.injEq _ _ _ _ ▸ Option.some_inj.mp h).1.symm
  · cases hcp : checkPhrase g s with
    | none => rw [hcp] at h ; simp at h
    | some corrections =>
      rw [hcp] at h
      dsimp only at h
      cases happly : applyCorrections s (sortByPosDesc corrections) with
      | none => rw [happly] at h ; simp at h
      | some c2 =>
        rw [happly] at h
        dsimp only at h
        rcases Prod.mk.injEq _ _ _ _ ▸ Option.some_inj.mp h with ⟨hc, hnil⟩
        rw [hnil] at happly
        have hs2 : s = c2 := Option.some_inj.mp happly
        rw [← hc, ← hs2]

theorem correctSentences_changes_nil {g : Lookup} : ∀ {pieces : List Str} {cor : Str},
    correctSentences g pieces = some (cor, []) → cor = pieces.flatten := by
  intro pieces
  induction pieces with
  | nil =>
    intro cor h
    simpa using ((Prod.mk.injEq _ _ _ _ ▸ Option.some_inj.mp h).1).symm
  | cons s ss ih =>
    intro cor h
    unfold correctSentences at h
    cases hs : correctSentence g s with
    | none => rw [hs] at h ; simp at h
    | some p =>
      obtain ⟨corrected, changed⟩ := p
      rw [hs] at h
      dsimp only at h
      cases hss : correctSentences g ss with
      | none => rw [hss] at h ; simp at h
      | some q =>
        obtain ⟨rest, restChanged⟩ := q
        rw [hss] at h
        dsimp only at h
        rcases Prod.mk.injEq _ _ _ _ ▸ Option.some_inj.mp h with ⟨hc, hnil⟩
        rcases List.append_eq_nil.mp hnil with ⟨hch, hrch⟩
        rw [hch] at hs
        rw [hrch] at hss
        have h1 : corrected = s := correctSentence_changes_nil hs
        have h2 : rest = ss.flatten := ih hss
        rw [← hc, h1, h2]
        rfl

/-! ### Resolve idempotence machinery -/

theorem checkCap_none {g : Lookup} {t : Str} (h : checkCapitalization g t = none) :
    g t = none := by
  unfold checkCapitalization at h
  cases hg : g t with
  | none => rfl
  | some c => rw [hg] at h ; simp at h

theorem checkCap_some {g : Lookup} {t : Str} {b : Bool} {cf : Str}
    (h : checkCapitalization g t = some (b, cf)) : g t = some cf ∧ b = (t == cf) := by
  unfold checkCapitalization at h
  cases hg : g t with
  | none => rw [hg] at h ; simp at h
  | some c =>
    rw [hg] at h
    dsimp only at h
    rcases Prod.mk.injEq _ _ _ _ ▸ Option.some_inj.mp h with ⟨hb, hc⟩
    subst hc
    exact ⟨rfl, hb.symm⟩

theorem checkCap_self {g : Lookup} {t : Str} (h : g t = some t) :
    checkCapitalization g t = some (true, t) := by
  unfold checkCapitalization
  rw [h]
  simp

/-- Generic disjointness transfer from a decidable `all`-check on the
concrete term lists. -/
theorem disjoint_terms {l1 l2 : List Str}
    (h : l1.all (fun a => !(l2.contains a)) = true) : ∀ x ∈ l1, x ∉ l2 := by
  intro x hx hmem
  have := List.all_eq_true.mp h x hx
  simp [List.elem_iff, hmem] at this

/-- A word on which every lexical rule falls through, and which the
Name Store does not know, resolves as already correct. -/
theorem checkWord_correct_of_skips (g : Lookup) (word context : Str)
    (hg : checkCapitalization g word = none)
    (h1 : dayRule word (pyLower word) = none)
    (h2 : monthRule word (pyLower word) = none)
    (h3 : holidayLoop word (pyLower word) (pyLower context) holidays = none)
    (h4 : languageRule word (pyLower word) = none)
    (h5 : rankTitleRule word (pyLower word) context = some none)
    (h6 : religionRule word (pyLower word) = none)
    (h7 : deityRule word (pyLower word) = none)
    (h8 : seasonRule word (pyLower word) = none) :
    checkWord g word context = some (false, word, strL "Correct") := by
  unfold checkWord
  rw [hg, h1, h2, h3, h4, h5, h6, h7, h8]

theorem checkCap_none_of {g : Lookup} {t : Str} (h : g t = none) :
    checkCapitalization g t = none := by
  unfold checkCapitalization
  rw [h]

theorem pyLower_cap_low (word : Str) :
    pyLower (pyCapitalize (pyLower word)) = pyLower word := by
  rw [pyLower_pyCapitalize, pyLower_pyLower]

theorem pyLower_title_low (word : Str) :
    pyLower (pyTitle (pyLower word)) = pyLower word := by
  rw [pyLower_pyTitle, pyLower_pyLower]

/-- Second resolution of a word already in capitalize-first form: every
rule skips, provided the store does not match it, its lowercase form is
not a holiday or season term, and no holiday term occurs in the
context. -/
theorem checkWord_correct_capform (g : Lookup) (word context : Str)
    (H3 : ∀ h ∈ holidays, containsSeq h (pyLower context) = false)
    (hg : checkCapitalization g (pyCapitalize (pyLower word)) = none)
    (hnh : pyLower word ∉ holidays)
    (hns : pyLower word ∉ seasons) :
    checkWord g (pyCapitalize (pyLower word)) context
      = some (false, pyCapitalize (pyLower word), strL "Correct") := by
  have hlw := pyLower_cap_low word
  apply checkWord_correct_of_skips
  · exact hg
  · rw [hlw]
    exact dayRule_skip (Or.inr rfl)
  · rw [hlw]
    exact monthRule_skip (Or.inr rfl)
  · rw [hlw]
    exact holidayLoop_skip (Or.inr (fun hterm hh => ⟨fun heq => hnh (heq ▸ hh), H3 hterm hh⟩))
  · rw [hlw]
    exact languageRule_skip (Or.inr rfl)
  · rw [hlw]
    exact rankTitleRule_skip (Or.inr rfl)
  · rw [hlw]
    exact religionRule_skip (Or.inr rfl)
  · rw [hlw]
    exact deityRule_skip (Or.inr rfl)
  · rw [hlw]
    exact seasonRule_skip (Or.inl hns)

/-- Second resolution of a holiday correction output: every rule skips
because holiday terms belong to no other category. -/
theorem checkWord_correct_titleform (g : Lookup) (word context : Str)
    (hg : checkCapitalization g (pyTitle (pyLower word)) = none)
    (hmem : pyLower word ∈ holidays) :
    checkWord g (pyTitle (pyLower word)) context
      = some (false, pyTitle (pyLower word), strL "Correct") := by
  have hlw := pyLower_title_low word
  apply checkWord_correct_of_skips
  · exact hg
  · rw [hlw]
    exact dayRule_skip (Or.inl (disjoint_terms (by decide) _ hmem))
  · rw [hlw]
    exact monthRule_skip (Or.inl (disjoint_terms (by decide) _ hmem))
  · rw [hlw]
    exact holidayLoop_skip (Or.inl rfl)
  · rw [hlw]
    exact languageRule_skip (Or.inl (disjoint_terms (by decide) _ hmem))
  · rw [hlw]
    exact rankTitleRule_skip
      (Or.inl ⟨disjoint_terms (by decide) _ hmem, disjoint_terms (by decide) _ hmem⟩)
  · rw [hlw]
    exact religionRule_skip (Or.inl (disjoint_terms (by decide) _ hmem))
  · rw [hlw]
    exact deityRule_skip (Or.inl (disjoint_terms (by decide) _ hmem))
  · rw [hlw]
    exact seasonRule_skip (Or.inl (disjoint_terms (by decide) _ hmem))

/-- Second resolution of a season correction output (the all-lowercase
form): every rule skips. -/
theorem checkWord_correct_seasonform (g : Lookup) (word context : Str)
    (H3 : ∀ h ∈ holidays, containsSeq h (pyLower context) = false)
    (hg : checkCapitalization g (pyLower word) = none)
    (hmem : pyLower word ∈ seasons) :
    checkWord g (pyLower word) context
      = some (false, pyLower word, strL "Correct") := by
  have hlw := pyLower_pyLower word
  apply checkWord_correct_of_skips
  · exact hg
  · rw [hlw]
    exact dayRule_skip (Or.inl (disjoint_terms (by decide) _ hmem))
  · rw [hlw]
    exact monthRule_skip (Or.inl (disjoint_terms (by decide) _ hmem))
  · rw [hlw]
    exact holidayLoop_skip
      (Or.inr (fun hterm hh =>
        ⟨fun heq => (disjoint_terms (by decide) _ hmem) (heq ▸ hh), H3 hterm hh⟩))
  · rw [hlw]
    exact languageRule_skip (Or.inl (disjoint_terms (by decide) _ hmem))
  · rw [hlw]
    exact rankTitleRule_skip
      (Or.inl ⟨disjoint_terms (by decide) _ hmem, disjoint_terms (by decide) _ hmem⟩)
  · rw [hlw]
    exact religionRule_skip (Or.inl (disjoint_terms (by decide) _ hmem))
  · rw [hlw]
    exact deityRule_skip (Or.inl (disjoint_terms (by decide) _ hmem))
  · rw [hlw]
    exact seasonRule_skip (Or.inr rfl)

/-! ### Claim support: stores used in concrete scenarios -/

/-- A Name Store with no records at all. -/
def storeEmpty : Lookup := fun _ => none

/-- A Name Store that case-insensitively knows exactly the record
"New York". -/
def storeNY : Lookup := fun s =>
  if pyLower s = strL "new york" then some (strL "New York") else none

/-- A Name Store knowing the records "New York City" and "York City". -/
def storeCity : Lookup := fun s =>
  if pyLower s = strL "new york city" then some (strL "New York City")
  else if pyLower s = strL "york city" then some (strL "York City")
  else none

/-- A Name Store knowing a 3-word, a 2-word and a 1-word record at the
same starting tokens. -/
def storeABC : Lookup := fun s =>
  if pyLower s = strL "a b c" then some (strL "A B C")
  else if pyLower s = strL "a b" then some (strL "A B")
  else if pyLower s = strL "a" then some (strL "A")
  else none

/-- A Name Store knowing a 2-word record and a 1-word record for the
second token of the 2-word span. -/
def storeAB : Lookup := fun s =>
  if pyLower s = strL "a b" then some (strL "A B")
  else if pyLower s = strL "a" then some (strL "A")
  else none

/-- A Name Store that knows exactly the single record "May". -/
def storeMay : Lookup := fun s =>
  if s = strL "May" then some (strL "May") else none

/-! ### Overlap measure for scanner output (formalizing the claims) -/

/-- Number of tokens covered by a correction's original span. -/
def spanLen (c : Correction) : Nat := (pySplit c.original).length

/-- Two corrections cover intersecting token ranges. -/
def overlapping (a b : Correction) : Prop :=
  a.position < b.position + spanLen b ∧ b.position < a.position + spanLen a

/-- All corrections of a list cover pairwise disjoint token ranges. -/
def NonOverlapping (cs : List Correction) : Prop :=
  cs.Pairwise (fun a b => ¬ overlapping a b)

/-! ## Claims -/

/-- C1: for the input "I visited new york on monday." and a Name Store
knowing exactly the span "new york" with canonical form "New York", the
code does NOT return the values the claim states: the rewriter replaces
only the first token of the two-word span, leaving "york" behind, and
the final token "monday." (with the attached period) never matches the
day rule.  The result has corrected text
"I visited New York york on monday.", one correction in total, and
stats counting only the geographic correction. -/
theorem C1_analyze_visited_new_york :
    analyzeText storeNY (strL "I visited new york on monday.") = some
      ⟨strL "I visited new york on monday.",
       strL "I visited New York york on monday.",
       [⟨2, strL "new york", strL "New York", strL "Geographic name (2 words)"⟩],
       [(strL "Geographic name (2 words)", 1)],
       1⟩ := by
  decide

/-- C2: applying a Correction whose span covers two tokens substitutes
the canonical form only at the span's first token: the second original
token "york" remains in the sentence next to the inserted "New York",
contradicting the claim that none of the span's original tokens
survive. -/
theorem C2_rewriter_leaves_span_tokens :
    correctText storeNY (strL "new york") = some
      (strL "New York york",
       [⟨0, strL "new york", strL "New York", strL "Geographic name (2 words)"⟩]) := by
  decide

/-- C3 counterexample: the Phrase Scanner can emit overlapping
corrections.  With a store knowing "new york city" and "york city", the
sentence "new york city" yields a 3-word correction at position 0 and a
2-word correction at position 1, whose token ranges intersect. -/
theorem C3_counterexample :
    ¬ (∀ (g : Lookup) (s : Str) (cs : List Correction),
        checkPhrase g s = some cs → NonOverlapping cs) := by
  intro hclaim
  have h := hclaim storeCity (strL "new york city")
    [⟨0, strL "new york city", strL "New York City", strL "Geographic name (3 words)"⟩,
     ⟨1, strL "york city", strL "York City", strL "Geographic name (2 words)"⟩]
    (by decide)
  rcases List.pairwise_cons.mp h with ⟨hrel, -⟩
  exact hrel
    ⟨1, strL "york city", strL "York City", strL "Geographic name (2 words)"⟩
    (by simp) ⟨by decide, by decide⟩

/-- C3 (amended): the scanner emits at most one correction per start
index and the emitted corrections have strictly increasing positions,
so no two corrections share a start index; full span-disjointness does
not hold. -/
theorem C3_positions_strictly_increasing (g : Lookup) (s : Str) (cs : List Correction)
    (h : checkPhrase g s = some cs) :
    cs.Pairwise (fun a b => a.position < b.position) :=
  (checkPhrase_sound h).2

/-- C3 witness: the amended theorem applied to the concrete overlapping
scenario. -/
theorem C3_witness :
    ([⟨0, strL "new york city", strL "New York City", strL "Geographic name (3 words)"⟩,
      ⟨1, strL "york city", strL "York City", strL "Geographic name (2 words)"⟩]
        : List Correction).Pairwise (fun a b => a.position < b.position) :=
  C3_positions_strictly_increasing storeCity (strL "new york city") _ (by decide)

/-- C4 counterexample: when a 3-word geographic interpretation also
exists at the same start index, the scanner emits the 3-word correction
and not the 2-word one, refuting the claim as stated. -/
theorem C4_counterexample :
    ¬ (∀ (g : Lookup) (s : Str) (i : Nat) (cs : List Correction) (cf2 cf1 : Str),
        checkPhrase g s = some cs →
        i + 1 < (pySplit s).length →
        checkCapitalization g (joinSp (((pySplit s).drop i).take 2)) = some (false, cf2) →
        checkCapitalization g ((pySplit s).getD i []) = some (false, cf1) →
        ((⟨i, joinSp (((pySplit s).drop i).take 2), cf2,
            strL "Geographic name (2 words)"⟩ : Correction) ∈ cs
          ∧ (⟨i, (pySplit s).getD i [], cf1, strL "Geographic name"⟩ : Correction) ∉ cs)) := by
  intro hclaim
  have h := (hclaim storeABC (strL "a b c") 0
    [⟨0, strL "a b c", strL "A B C", strL "Geographic name (3 words)"⟩]
    (strL "A B") (strL "A") (by decide) (by decide) (by decide) (by decide)).1
  exact absurd h (by decide)

/-- C4 (amended): at a start index where both a 2-word and a 1-word
geographic interpretation exist (both differing from canonical), and
where the 3-word test does not fire, the scanner emits the 2-word
correction and never the 1-word correction at that index. -/
theorem C4_two_word_priority (g : Lookup) (s : Str) (i : Nat) (cs : List Correction)
    (cf2 cf1 : Str)
    (h : checkPhrase g s = some cs)
    (hlen : i + 1 < (pySplit s).length)
    (hcc2 : checkCapitalization g (joinSp (((pySplit s).drop i).take 2)) = some (false, cf2))
    (hcc1 : checkCapitalization g ((pySplit s).getD i []) = some (false, cf1))
    (h3 : ¬(i + 2 < (pySplit s).length
      ∧ ∃ cf3, checkCapitalization g (joinSp (((pySplit s).drop i).take 3))
          = some (false, cf3))) :
    (⟨i, joinSp (((pySplit s).drop i).take 2), cf2,
        strL "Geographic name (2 words)"⟩ : Correction) ∈ cs
      ∧ (⟨i, (pySplit s).getD i [], cf1, strL "Geographic name"⟩ : Correction) ∉ cs := by
  have hskip3 : trySpan g (pySplit s) i 3 (strL "Geographic name (3 words)") = none := by
    refine trySpan_skip _ ?_
    intro hcon
    exact h3 ⟨by simpa using hcon.1, hcon.2⟩
  have hfire2 : trySpan g (pySplit s) i 2 (strL "Geographic name (2 words)")
      = some ⟨i, joinSp (((pySplit s).drop i).take 2), cf2, strL "Geographic name (2 words)"⟩ :=
    trySpan_fire _ (by simpa using hlen) hcc2
  have hscan : scanAt g s (pySplit s) i
      = some (some ⟨i, joinSp (((pySplit s).drop i).take 2), cf2,
          strL "Geographic name (2 words)"⟩) := by
    unfold scanAt
    rw [hskip3, hfire2]
  constructor
  · exact scanFrom_complete (pySplit s).length 0 cs h i (by omega) (by omega) _ hscan
  · intro hmem
    have := scanFrom_mem (pySplit s).length 0 cs h _ hmem
    have hpos : (⟨i, (pySplit s).getD i [], cf1,
        strL "Geographic name"⟩ : Correction).position = i := rfl
    rw [hpos, hscan] at this
    have heq := Option.some_inj.mp (Option.some_inj.mp this)
    have hr : strL "Geographic name (2 words)" = strL "Geographic name" :=
      congrArg Correction.reason heq
    exact absurd hr (by decide)

/-- C4 witness: the amended theorem applied to a store knowing "A B"
and "A" but no 3-word span. -/
theorem C4_witness :
    (⟨0, strL "a b", strL "A B", strL "Geographic name (2 words)"⟩ : Correction) ∈
        [(⟨0, strL "a b", strL "A B", strL "Geographic name (2 words)"⟩ : Correction)]
      ∧ (⟨0, strL "a", strL "A", strL "Geographic name"⟩ : Correction) ∉
        [(⟨0, strL "a b", strL "A B", strL "Geographic name (2 words)"⟩ : Correction)] :=
  C4_two_word_priority storeAB (strL "a b") 0 _ (strL "A B") (strL "A")
    (by decide) (by decide) (by decide) (by decide)
    (fun hcon => absurd hcon.1 (by decide))

/-- C5: a word the Name Store knows whose text already equals the
canonical form resolves immediately as correct, whatever the context
and regardless of any lexical category its lowercase form belongs to:
the geographic branch returns before any lexical rule is evaluated. -/
theorem C5_geo_precedence (g : Lookup) (w c : Str) (h : g w = some w) :
    checkWord g w c = some (false, w, strL "Correct") := by
  unfold checkWord
  rw [checkCap_self h]
  simp

/-- C5 witness: "May" is a known geographic record in canonical form
and also a month term; it resolves as correct via the geographic
rule. -/
theorem C5_witness :
    checkWord storeMay (strL "May") (strL "") = some (false, strL "May", strL "Correct") :=
  C5_geo_precedence storeMay (strL "May") (strL "") (by decide)

/-- C6 counterexample: analyze is not idempotent.  With an empty Name
Store, "colonel general Smith" is corrected to
"colonel General Smith" (the rank rule sees "general" followed by
capitalized "Smith"), and analyzing that output corrects "colonel"
(now followed by capitalized "General"), so the second pass still
reports one correction. -/
theorem C6_counterexample :
    ¬ (∀ (g : Lookup) (t : Str) (r1 r2 : Analysis),
        analyzeText g t = some r1 → analyzeText g r1.corrected = some r2 →
        r2.total = 0) := by
  intro hclaim
  have h := hclaim storeEmpty (strL "colonel general Smith")
    ⟨strL "colonel general Smith", strL "colonel General Smith",
     [⟨1, strL "general", strL "General", strL "Military rank before name"⟩],
     [(strL "Military rank before name", 1)], 1⟩
    ⟨strL "colonel General Smith", strL "Colonel General Smith",
     [⟨0, strL "colonel", strL "Colonel", strL "Military rank before name"⟩],
     [(strL "Military rank before name", 1)], 1⟩
    (by decide) (by decide)
  exact absurd h (by decide)

/-- C6 (amended): idempotence holds at the level of the Word Resolver
for a fixed context: if the store matches case-insensitively in a
consistent way (lower-equal queries are equally unmatched and canonical
forms are fixed points) and the context contains no holiday term, then
re-resolving a proposed correction reports no correction.  Full
analyze-level idempotence fails because corrections change the context
seen by the rank/title rule, and the holiday-in-context rule can
oscillate with the season rule. -/
theorem C6_resolve_idempotent (g : Lookup) (word context w2 r : Str)
    (H1 : ∀ s t : Str, pyLower s = pyLower t → g s = none → g t = none)
    (H2 : ∀ s c : Str, g s = some c → g c = some c)
    (H3 : ∀ h ∈ holidays, containsSeq h (pyLower context) = false)
    (h : checkWord g word context = some (true, w2, r)) :
    checkWord g w2 context = some (false, w2, strL "Correct") := by
  cases hg : checkCapitalization g word with
  | some p =>
    obtain ⟨isC, cf⟩ := p
    rcases checkCap_some hg with ⟨hgw, hb⟩
    unfold checkWord at h
    rw [hg] at h
    dsimp only at h
    by_cases hisC : isC = false
    · rw [if_pos hisC] at h
      have heq := Option.some_inj.mp h
      simp only [Prod.mk.injEq, true_and] at heq
      rcases heq with ⟨hw2, hr⟩
      subst hw2
      have hcf : g cf = some cf := H2 word cf hgw
      unfold checkWord
      rw [checkCap_self hcf]
      simp
    · rw [if_neg hisC] at h
      simp at h
  | none =>
    have hgw : g word = none := checkCap_none hg
    unfold checkWord at h
    rw [hg] at h
    dsimp only at h
    cases hd : dayRule word (pyLower word) with
    | some d =>
      rw [hd] at h
      dsimp only at h
      have hdd := Option.some_inj.mp h
      subst hdd
      rcases dayRule_inv hd with ⟨heq, hmem, hneq⟩
      simp only [Prod.mk.injEq, true_and] at heq
      rcases heq with ⟨hw2, hr⟩
      subst hw2
      exact checkWord_correct_capform g word context H3
        (checkCap_none_of (H1 word _ (pyLower_cap_low word).symm hgw))
        (disjoint_terms (by decide) _ hmem) (disjoint_terms (by decide) _ hmem)
    | none =>
      rw [hd] at h
      dsimp only at h
      cases hm : monthRule word (pyLower word) with
      | some d =>
        rw [hm] at h
        dsimp only at h
        have hdd := Option.some_inj.mp h
        subst hdd
        rcases monthRule_inv hm with ⟨heq, hmem, hneq⟩
        simp only [Prod.mk.injEq, true_and] at heq
        rcases heq with ⟨hw2, hr⟩
        subst hw2
        exact checkWord_correct_capform g word context H3
          (checkCap_none_of (H1 word _ (pyLower_cap_low word).symm hgw))
          (disjoint_terms (by decide) _ hmem) (disjoint_terms (by decide) _ hmem)
      | none =>
        rw [hm] at h
        dsimp only at h
        cases hh : holidayLoop word (pyLower word) (pyLower context) holidays with
        | some d =>
          rw [hh] at h
          dsimp only at h
          have hdd := Option.some_inj.mp h
          subst hdd
          rcases holidayLoop_inv hh with ⟨heq, hneq, hterm, hterm_mem, hcase⟩
          simp only [Prod.mk.injEq, true_and] at heq
          rcases heq with ⟨hw2, hr⟩
          subst hw2
          have hmem : pyLower word ∈ holidays := by
            rcases hcase with hcase | hcase
            · rw [hcase]
              exact hterm_mem
            · rw [H3 hterm hterm_mem] at hcase
              exact absurd hcase (by simp)
          exact checkWord_correct_titleform g word context
            (checkCap_none_of (H1 word _ (pyLower_title_low word).symm hgw)) hmem
        | none =>
          rw [hh] at h
          dsimp only at h
          cases hl : languageRule word (pyLower word) with
          | some d =>
            rw [hl] at h
            dsimp only at h
            have hdd := Option.some_inj.mp h
            subst hdd
            rcases languageRule_inv hl with ⟨heq, hmem, hneq⟩
            simp only [Prod.mk.injEq, true_and] at heq
            rcases heq with ⟨hw2, hr⟩
            subst hw2
            exact checkWord_correct_capform g word context H3
              (checkCap_none_of (H1 word _ (pyLower_cap_low word).symm hgw))
              (disjoint_terms (by decide) _ hmem) (disjoint_terms (by decide) _ hmem)
          | none =>
            rw [hl] at h
            dsimp only at h
            cases hrt : rankTitleRule word (pyLower word) context with
            | none =>
              rw [hrt] at h
              simp at h
            | some o =>
              rw [hrt] at h
              cases o with
              | some d =>
                dsimp only at h
                have hdd := Option.some_inj.mp h
                subst hdd
                rcases rankTitleRule_inv hrt with ⟨heq, hmem, hneq⟩
                simp only [Prod.mk.injEq, true_and] at heq
                rcases heq with ⟨hw2, hr⟩
                subst hw2
                rcases hmem with hmem | hmem
                · exact checkWord_correct_capform g word context H3
                    (checkCap_none_of (H1 word _ (pyLower_cap_low word).symm hgw))
                    (disjoint_terms (by decide) _ hmem) (disjoint_terms (by decide) _ hmem)
                · exact checkWord_correct_capform g word context H3
                    (checkCap_none_of (H1 word _ (pyLower_cap_low word).symm hgw))
                    (disjoint_terms (by decide) _ hmem) (disjoint_terms (by decide) _ hmem)
              | none =>
                dsimp only at h
                cases hre : religionRule word (pyLower word) with
                | some d =>
                  rw [hre] at h
                  dsimp only at h
                  have hdd := Option.some_inj.mp h
                  subst hdd
                  rcases religionRule_inv hre with ⟨heq, hmem, hneq⟩
                  simp only [Prod.mk.injEq, true_and] at heq
                  rcases heq with ⟨hw2, hr⟩
                  subst hw2
                  exact checkWord_correct_capform g word context H3
                    (checkCap_none_of (H1 word _ (pyLower_cap_low word).symm hgw))
                    (disjoint_terms (by decide) _ hmem) (disjoint_terms (by decide) _ hmem)
                | none =>
                  rw [hre] at h
                  dsimp only at h
                  cases hde : deityRule word (pyLower word) with
                  | some d =>
                    rw [hde] at h
                    dsimp only at h
                    have hdd := Option.some_inj.mp h
                    subst hdd
                    rcases deityRule_inv hde with ⟨heq, hmem, hsub, hneq⟩
                    simp only [Prod.mk.injEq, true_and] at heq
                    rcases heq with ⟨hw2, hr⟩
                    subst hw2
                    exact checkWord_correct_capform g word context H3
                      (checkCap_none_of (H1 word _ (pyLower_cap_low word).symm hgw))
                      (disjoint_terms (by decide) _ hmem) (disjoint_terms (by decide) _ hmem)
                  | none =>
                    rw [hde] at h
                    dsimp only at h
                    cases hse : seasonRule word (pyLower word) with
                    | some d =>
                      rw [hse] at h
                      dsimp only at h
                      have hdd := Option.some_inj.mp h
                      subst hdd
                      rcases seasonRule_inv hse with ⟨heq, hmem, hneq⟩
                      simp only [Prod.mk.injEq, true_and] at heq
                      rcases heq with ⟨hw2, hr⟩
                      subst hw2
                      exact checkWord_correct_seasonform g word context H3
                        (checkCap_none_of (H1 word _ (pyLower_pyLower word).symm hgw)) hmem
                    | none =>
                      rw [hse] at h
                      dsimp only at h
                      simp at h

/-- C6 witness: with an empty store and empty context, "monday" is
corrected to "Monday", and re-resolving "Monday" reports no
correction. -/
theorem C6_witness :
    checkWord storeEmpty (strL "Monday") (strL "")
      = some (false, strL "Monday", strL "Correct") :=
  C6_resolve_idempotent storeEmpty (strL "monday") (strL "")
    (strL "Monday") (strL "Day of week")
    (fun _ _ _ _ => rfl) (fun _ _ hsc => nomatch hsc) (by decide) (by decide)

/-- C7 counterexample: applying an empty correction list does not
token-normalize the sentence: a double space survives, so the result
differs from the whitespace-split tokens rejoined with single
spaces. -/
theorem C7_counterexample :
    applyCorrections (strL "a  b") [] ≠ some (joinSp (pySplit (strL "a  b"))) := by
  decide

/-- C7 (amended): applying an empty correction list returns the
sentence completely unchanged (verbatim, not token-normalized): the
substitution loop never runs, so no split-and-rejoin happens. -/
theorem C7_empty_corrections_verbatim (s : Str) : applyCorrections s [] = some s :=
  rfl

/-- C8: any word that reaches the holiday rule is corrected to the
title-case of its lowercase form whenever some holiday term equals the
lowercase word or merely occurs anywhere inside the context string, and
the word differs from that title-case form. -/
theorem C8_holiday_context (g : Lookup) (w c : Str)
    (hg : g w = none)
    (hd : pyLower w ∉ days)
    (hm : pyLower w ∉ months)
    (hex : ∃ h ∈ holidays, pyLower w = h ∨ containsSeq h (pyLower c) = true)
    (hne : w ≠ pyTitle (pyLower w)) :
    checkWord g w c = some (true, pyTitle (pyLower w), strL "Holiday") := by
  unfold checkWord
  rw [checkCap_none_of hg, dayRule_skip (Or.inl hd), monthRule_skip (Or.inl hm),
    holidayLoop_fire hne hex]

/-- C8 witness: the arbitrary word "xyz" is corrected to "Xyz" with
reason "Holiday" merely because "christmas" occurs in the context. -/
theorem C8_witness :
    checkWord storeEmpty (strL "xyz") (strL "on christmas")
      = some (true, strL "Xyz", strL "Holiday") :=
  C8_holiday_context storeEmpty (strL "xyz") (strL "on christmas")
    rfl (by decide) (by decide) (by decide) (by decide)

/-- C9: analyze is total: for every store function and every input
string the pipeline returns a result; in particular the rank/title
rule's next-token read and every substitution index during rewriting
stay in bounds. -/
theorem C9_analyze_total (g : Lookup) (t : Str) : (analyzeText g t).isSome = true := by
  unfold analyzeText
  cases hct : correctText g t with
  | none =>
    have := correctSentences_isSome g (sentSplit t)
    unfold correctText at hct
    rw [hct] at this
    simp at this
  | some p =>
    obtain ⟨corrected, changes⟩ := p
    simp

/-- C10: when analyze reports zero corrections, the corrected text is
the original text character for character: uncorrected sentence pieces
pass through verbatim and the splitter's pieces concatenate back to the
input. -/
theorem C10_no_corrections_verbatim (g : Lookup) (t : Str) (a : Analysis)
    (h : analyzeText g t = some a) (htot : a.total = 0) : a.corrected = t := by
  unfold analyzeText at h
  cases hct : correctText g t with
  | none =>
    rw [hct] at h
    simp at h
  | some p =>
    obtain ⟨cor, changes⟩ := p
    rw [hct] at h
    dsimp only at h
    have ha := Option.some_inj.mp h
    subst ha
    have hnil : changes = [] := List.length_eq_zero.mp htot
    subst hnil
    unfold correctText at hct
    show cor = t
    rw [correctSentences_changes_nil hct, sentSplit_join]

/-- C10 witness: a text with a double space and no correctable word
comes back verbatim. -/
theorem C10_witness :
    (⟨strL "hello  world", strL "hello  world", [], [], 0⟩ : Analysis).corrected
      = strL "hello  world" :=
  C10_no_corrections_verbatim storeEmpty (strL "hello  world") _ (by decide) (by decide)

end Capitalize
